/-
Verification of the `alg` audio reverberation core against its
natural-language specification.

The Rust source under `src/audio` (delay.rs, hadamard.rs, householder.rs,
diffusion.rs, feedback.rs, reverb.rs) and `src/rnd.rs` is shallowly
embedded below.  `f32` samples are modelled as real numbers (the spec's
algebraic properties are stated "exactly over the reals"); `u32`
arithmetic is modelled as natural numbers reduced mod 2^32; Rust arrays
`[f32; C]` are modelled as `List ℝ` whose length plays the role of the
const-generic `C`; a Rust `panic!` is modelled as `Option.none`.
-/
import Mathlib

/-! ### src/rnd.rs — the Thrust-variant PRNG

`Rnd` holds one `u32` of state.  `next` is a direct transcription of

    let mut z = w(self.0) + w(0x6D2B79F5);
    self.0 = z.0;
    z = (z ^ (z >> 15)) * (z | w(1));
    z ^= z + (z ^ (z >> 7)) * (z | w(61));
    (z ^ (z >> 14)).0

with every wrapping `+`/`*` reduced mod 2^32.  The result pair is
(output value, new state). -/

def u32Mod : ℕ := 2 ^ 32

def Rnd.next (s : ℕ) : ℕ × ℕ :=
  let z1 := (s + 0x6D2B79F5) % u32Mod
  let z2 := ((z1 ^^^ (z1 >>> 15)) * (z1 ||| 1)) % u32Mod
  let z3 := z2 ^^^ ((z2 + ((z2 ^^^ (z2 >>> 7)) * (z2 ||| 61)) % u32Mod) % u32Mod)
  (z3 ^^^ (z3 >>> 14), z1)

/-- The repository's own test vector for the PRNG (`rnd.rs`, `test_seq`):
seed 12 produces 1237598750, 324989476, 2491772807. -/
theorem rnd_test_vector :
    (Rnd.next 12).1 = 1237598750 ∧
    (Rnd.next (Rnd.next 12).2).1 = 324989476 ∧
    (Rnd.next (Rnd.next (Rnd.next 12).2).2).1 = 2491772807 := by
  refine ⟨?_, ?_, ?_⟩ <;> decide

/-! ### src/audio/delay.rs — MemoryDelay

    pub struct MemoryDelay<const N: usize> {
        buffer: [f32; N],
        sample_count: usize,
        index: usize,
    }

The buffer is a `List ℝ`; its length is the capacity `N`. -/

structure MemoryDelay where
  buffer : List ℝ
  sample_count : ℕ
  index : ℕ

namespace MemoryDelay

/-- `Default for MemoryDelay<N>`: zero buffer, `sample_count = N`, `index = 0`. -/
def default (N : ℕ) : MemoryDelay :=
  { buffer := List.replicate N 0, sample_count := N, index := 0 }

/-- `set_sample_count`: panics (`none`) when `sample_count > N`. -/
def set_sample_count (d : MemoryDelay) (sample_count : ℕ) : Option MemoryDelay :=
  if sample_count > d.buffer.length then none
  else some { d with sample_count := sample_count }

/-- `read`: `self.buffer[self.index]`. -/
def read (d : MemoryDelay) : ℝ :=
  d.buffer.getD d.index 0

/-- `write`: store at the cursor, advance, wrap to 0 at `sample_count`. -/
def write (d : MemoryDelay) (v : ℝ) : MemoryDelay :=
  let buffer := d.buffer.set d.index v
  let index := d.index + 1
  { buffer := buffer, sample_count := d.sample_count,
    index := if index ≥ d.sample_count then 0 else index }

/-- Feeding a stream of samples into a delay line, one `write` per step. -/
def writeAll (d : MemoryDelay) (xs : List ℝ) : MemoryDelay :=
  xs.foldl write d

end MemoryDelay

/-! ### src/audio/householder.rs

    let k = samples.iter().sum::<f32>() * multiplier::<C>();   -- multiplier = -2/C
    for b in samples { *b += k; }
-/

noncomputable def transform_householder (samples : List ℝ) : List ℝ :=
  let k := samples.sum * (-2 / (samples.length : ℝ))
  samples.map (fun b => b + k)

/-! ### src/audio/hadamard.rs

    let mut stride = 1;
    while stride < C {
        for i in (0..C).step_by(stride * 2) {
            for j in 0..stride {
                let a = samples[i + j];
                let b = samples[i + j + stride];
                samples[i + j] = a + b;
                samples[i + j + stride] = a - b;
            }
        }
        stride *= 2;
    }
    for b in samples { *b *= factor::<C>(); }     -- factor = sqrt(1/C)

The `while` loop visits strides 1, 2, 4, … as long as they are `< C`;
`strides C` is that list.  `(0..C).step_by(stride*2)` is the list of
multiples of `stride*2` below `C`, i.e. `blockStarts`.  One butterfly
body is `bfly`; a whole stride pass is `strideStage`, folding the
butterflies in the source's loop order. -/

/-- The stride values taken by the `while stride < C` loop: all powers of
two below `C`, in increasing order (`2^m < C` forces `m < C`, so
`List.range C` is an ample supply of exponents). -/
def strides (C : ℕ) : List ℕ :=
  ((List.range C).map (2 ^ ·)).filter (· < C)

/-- `(0..C).step_by(stride * 2)`: the multiples of `stride * 2` below `C`. -/
def blockStarts (C stride : ℕ) : List ℕ :=
  (List.range C).filter (fun i => i % (stride * 2) = 0)

/-- The (first index, second index) pairs touched by one stride pass, in
loop order: `(i + j, i + j + stride)` for each block start `i` and each
`j < stride`. -/
def strideAccesses (C stride : ℕ) : List (ℕ × ℕ) :=
  (blockStarts C stride).flatMap
    (fun i => (List.range stride).map (fun j => (i + j, i + j + stride)))

/-- One butterfly: read positions `p`, `q`, write back `a + b` and `a - b`. -/
def bfly (l : List ℝ) (p q : ℕ) : List ℝ :=
  let a := l.getD p 0
  let b := l.getD q 0
  (l.set p (a + b)).set q (a - b)

/-- Fold a list of butterflies over the sample buffer in order. -/
def runPairs (l : List ℝ) (ps : List (ℕ × ℕ)) : List ℝ :=
  ps.foldl (fun acc pq => bfly acc pq.1 pq.2) l

/-- One pass of the two inner `for` loops at a fixed stride. -/
def strideStage (C stride : ℕ) (l : List ℝ) : List ℝ :=
  runPairs l (strideAccesses C stride)

/-- The full butterfly phase (the `while` loop), `C` being the array length. -/
def hadamardCore (l : List ℝ) : List ℝ :=
  (strides l.length).foldl (fun acc s => strideStage l.length s acc) l

/-- The whole transform: butterflies, then scale by `sqrt(1/C)`. -/
noncomputable def transform_hadamard (l : List ℝ) : List ℝ :=
  (hadamardCore l).map (fun b => b * Real.sqrt (1 / (l.length : ℝ)))

/-- Sum of squares ("total energy") of a sample buffer. -/
def sumSq (l : List ℝ) : ℝ :=
  (l.map (fun x => x * x)).sum

/-! ### src/audio/diffusion.rs — DiffusionStep and Diffuser -/

/-- `u32::MAX`. -/
def u32Max : ℕ := 4294967295

/-- Rust `as usize` applied to a (non-NaN, in-range) float: truncate toward
zero, saturating at 0 for negative values.  All values cast in this code
are non-negative, where this is `Int.toNat ∘ Int.floor`. -/
noncomputable def asUsize (x : ℝ) : ℕ :=
  (Int.floor x).toNat

/-- The per-channel delay-size computation inside `DiffusionStep::new`:

    let lo = (delay_samples * i as f32) / C as f32;
    let hi = (delay_samples * (i as f32 + 1.0)) / C as f32;
    let range = hi - lo;
    let delay_size = (range * (n as f32 / u32::MAX as f32)) as usize;
-/
noncomputable def diffusionDrawnSize (delay_samples : ℝ) (C i n : ℕ) : ℕ :=
  let lo := (delay_samples * (i : ℝ)) / (C : ℝ)
  let hi := (delay_samples * ((i : ℝ) + 1)) / (C : ℝ)
  let range := hi - lo
  asUsize (range * ((n : ℝ) / (u32Max : ℝ)))

structure DiffusionStep where
  delays : List MemoryDelay
  flip_polarity : List Bool

namespace DiffusionStep

/-- `DiffusionStep::new`.  `N` is every delay line's capacity, `C` the
channel count.  The channel loop draws one PRNG value per channel and
configures a fresh `MemoryDelay` (a failing `set_sample_count` is the
Rust panic, collapsing the whole construction to `none`); the polarity
loop then draws one more value per channel.  The final PRNG state is
returned alongside. -/
noncomputable def new (N C sample_rate : ℕ) (delay_range_secs : ℝ) (rnd : ℕ) :
    Option DiffusionStep × ℕ :=
  let delay_samples := delay_range_secs * (sample_rate : ℝ)
  let chans :=
    (List.range C).foldl
      (fun (acc : Option (List MemoryDelay) × ℕ) i =>
        let n := Rnd.next acc.2
        let delay_size := diffusionDrawnSize delay_samples C i n.1
        let d := (MemoryDelay.default N).set_sample_count (delay_size + 1)
        (acc.1.bind (fun ds => d.map (fun d0 => ds ++ [d0])), n.2))
      (some [], rnd)
  let flips :=
    (List.range C).foldl
      (fun (acc : List Bool × ℕ) _ =>
        let n := Rnd.next acc.2
        (acc.1 ++ [decide (n.1 > u32Max / 2)], n.2))
      ([], chans.2)
  (chans.1.map (fun ds => { delays := ds, flip_polarity := flips.1 }), flips.2)

/-- `DiffusionStep::process`: per channel write-then-read, Hadamard mix,
then per-channel polarity flip (`mixed[i] *= -1.0`). -/
noncomputable def process (st : DiffusionStep) (input : List ℝ) :
    DiffusionStep × List ℝ :=
  let newDelays := List.zipWith MemoryDelay.write st.delays input
  let mixed := newDelays.map MemoryDelay.read
  let mixed2 := transform_hadamard mixed
  let flipped := List.zipWith (fun f x => if f then x * (-1) else x) st.flip_polarity mixed2
  ({ delays := newDelays, flip_polarity := st.flip_polarity }, flipped)

end DiffusionStep

namespace Diffuser

/-- `Diffuser::new`: `S` steps; before building each step the remaining
time budget is halved (`seconds *= 0.5`), and the PRNG is threaded
through. -/
noncomputable def new (N C sample_rate : ℕ) (S : ℕ) (seconds : ℝ) (rnd : ℕ) :
    Option (List DiffusionStep) × ℕ :=
  let r :=
    (List.range S).foldl
      (fun (acc : Option (List DiffusionStep) × ℝ × ℕ) _ =>
        let secs := acc.2.1 * 0.5
        let st := DiffusionStep.new N C sample_rate secs acc.2.2
        (acc.1.bind (fun ss => st.1.map (fun s0 => ss ++ [s0])), secs, st.2))
      (some [], seconds, rnd)
  (r.1, r.2.2)

/-- `Diffuser::process`: pipe the frame through the steps in order,
collecting each step's updated state. -/
noncomputable def process (steps : List DiffusionStep) (input : List ℝ) :
    List DiffusionStep × List ℝ :=
  steps.foldl
    (fun (acc : List DiffusionStep × List ℝ) st =>
      let r := DiffusionStep.process st acc.2
      (acc.1 ++ [r.1], r.2))
    ([], input)

end Diffuser

/-! ### src/audio/feedback.rs — MixedFeedback -/

structure MixedFeedback where
  delays : List MemoryDelay
  decay : ℝ

namespace MixedFeedback

/-- `MixedFeedback::new`:

    let sample_count = sample_rate as f32 * delay_secs;
    for i in 0..C {
        let r = i as f32 / C as f32;
        let delay_size = (2.0.powf(r) * sample_count) as usize;
        delays[i].set_sample_count(delay_size + 1);
    }
-/
noncomputable def new (N C sample_rate : ℕ) (delay_secs decay : ℝ) :
    Option MixedFeedback :=
  let sample_count := (sample_rate : ℝ) * delay_secs
  let delays :=
    (List.range C).foldl
      (fun (acc : Option (List MemoryDelay)) i =>
        let r := (i : ℝ) / (C : ℝ)
        let delay_size := asUsize (Real.rpow 2 r * sample_count)
        let d := (MemoryDelay.default N).set_sample_count (delay_size + 1)
        acc.bind (fun ds => d.map (fun d0 => ds ++ [d0])))
      (some [])
  delays.map (fun ds => { delays := ds, decay := decay })

/-- `MixedFeedback::process`:

    let mut delayed: [_; C] = array::from_fn(|i| self.delays[i].read());
    let mixed = delayed.clone();
    transform_householder(&mut delayed);
    for i in 0..C {
        let sum = input[i] + mixed[i] * self.decay;
        self.delays[i].write(sum);
    }
    mixed

Note that the source applies the Householder transform to `delayed` and
then never reads `delayed` again: both the fed-back value and the return
value are built from `mixed`, the pre-transform clone.  The unused
`delayed2` below keeps that dead computation visible. -/
noncomputable def process (m : MixedFeedback) (input : List ℝ) :
    MixedFeedback × List ℝ :=
  let delayed := m.delays.map MemoryDelay.read
  let mixed := delayed
  let _delayed2 := transform_householder delayed
  let sums := List.zipWith (fun x mi => x + mi * m.decay) input mixed
  let newDelays := List.zipWith MemoryDelay.write m.delays sums
  ({ delays := newDelays, decay := m.decay }, mixed)

end MixedFeedback

/-! ### src/audio/reverb.rs — BasicReverb -/

structure BasicReverb where
  diffuser : List DiffusionStep
  feedback : MixedFeedback
  dry : ℝ
  wet : ℝ

namespace BasicReverb

/-- `BasicReverb::new`: seed the PRNG with the literal 82734, build the
diffuser, derive the decay gain from RT60, and build the feedback loop. -/
noncomputable def new (N C S sample_rate : ℕ) (room_size_secs rt60 dry wet : ℝ) :
    Option BasicReverb :=
  let rnd := 82734
  let diff := Diffuser.new N C sample_rate S room_size_secs rnd
  let typical_loop_secs := room_size_secs * 1.5
  let loops_per_rt_60 := rt60 / typical_loop_secs
  let db_per_cycle := -60 / loops_per_rt_60
  let decay := Real.rpow 10 (db_per_cycle * 0.05)
  let feedback := MixedFeedback.new N C sample_rate room_size_secs decay
  diff.1.bind (fun ds =>
    feedback.map (fun fb =>
      { diffuser := ds, feedback := fb, dry := dry, wet := wet }))

/-- `BasicReverb::process`: diffuse, feed back, then dry/wet mix. -/
noncomputable def process (r : BasicReverb) (input : List ℝ) :
    BasicReverb × List ℝ :=
  let d := Diffuser.process r.diffuser input
  let f := MixedFeedback.process r.feedback d.2
  let mixed := List.zipWith (fun a b => a * r.dry + b * r.wet) input f.2
  ({ diffuser := d.1, feedback := f.1, dry := r.dry, wet := r.wet }, mixed)

/-- Run a whole input sequence through the engine, collecting the output
frames. -/
noncomputable def processSeq (r : BasicReverb) (inputs : List (List ℝ)) :
    List (List ℝ) :=
  (inputs.foldl
    (fun (acc : BasicReverb × List (List ℝ)) x =>
      let p := process acc.1 x
      (p.1, acc.2 ++ [p.2]))
    (r, [])).2

end BasicReverb

/-! ### Generic list helpers -/

theorem getD_set_self {l : List ℝ} {i : ℕ} {v : ℝ} (h : i < l.length) :
    (l.set i v).getD i 0 = v := by
  simp [List.getD_eq_getElem?_getD, List.getElem?_set_self h]

theorem getD_set_ne {l : List ℝ} {i j : ℕ} {v : ℝ} (h : i ≠ j) :
    (l.set i v).getD j 0 = l.getD j 0 := by
  simp [List.getD_eq_getElem?_getD, List.getElem?_set_ne h]

theorem sum_map_add_const (l : List ℝ) (k : ℝ) :
    (l.map (fun x => x + k)).sum = l.sum + l.length * k := by
  induction l with
  | nil => simp
  | cons a t ih => simp [ih]; ring

/-! ### C4 — Householder involution -/

/-- C4: for every channel count `C ≥ 1` and every input vector, applying
`transform_householder` twice returns the original vector (exactly, over
the reals). -/
theorem householder_involution (l : List ℝ) (h : 1 ≤ l.length) :
    transform_householder (transform_householder l) = l := by
  have hC : ((l.length : ℕ) : ℝ) ≠ 0 := Nat.cast_ne_zero.mpr (by omega)
  simp only [transform_householder, List.length_map, List.map_map, sum_map_add_const]
  conv_rhs => rw [← List.map_id l]
  refine List.map_congr_left (fun a _ => ?_)
  simp only [Function.comp, id]
  field_simp
  ring

/-- C4 witness: the involution at the concrete vector `[1, 2, 3, 4]`. -/
theorem householder_involution_witness :
    1 ≤ ([(1 : ℝ), 2, 3, 4]).length ∧
    transform_householder (transform_householder [(1 : ℝ), 2, 3, 4]) = [(1 : ℝ), 2, 3, 4] :=
  ⟨by decide, householder_involution [(1 : ℝ), 2, 3, 4] (by decide)⟩

/-! ### C6 — set_sample_count panics exactly when `n` exceeds capacity -/

/-- C6: `set_sample_count n` fails (panics) iff `n` exceeds the capacity
`N` (the buffer length); for `n ≤ N` it succeeds and only replaces the
active length, leaving buffer and cursor unchanged. -/
theorem set_sample_count_spec (d : MemoryDelay) (n : ℕ) :
    (d.set_sample_count n = none ↔ d.buffer.length < n) ∧
    (n ≤ d.buffer.length →
      d.set_sample_count n =
        some { buffer := d.buffer, sample_count := n, index := d.index }) := by
  unfold MemoryDelay.set_sample_count
  by_cases h : d.buffer.length < n
  · rw [if_pos h]
    exact ⟨⟨fun _ => h, fun _ => rfl⟩, fun hle => absurd h (by omega)⟩
  · rw [if_neg h]
    refine ⟨⟨fun hc => ?_, fun hc => absurd hc h⟩, fun _ => rfl⟩
    simp at hc

/-- C6 witness: at capacity 2, `n = 2` succeeds, and the successful case
keeps buffer and cursor. -/
theorem set_sample_count_spec_witness :
    (MemoryDelay.set_sample_count { buffer := [0, 0], sample_count := 2, index := 0 } 2 =
      some { buffer := [0, 0], sample_count := 2, index := 0 }) := by
  have h := (set_sample_count_spec { buffer := [0, 0], sample_count := 2, index := 0 } 2).2
  exact h (by simp)

/-! ### The write-stream characterization of MemoryDelay -/

/-- Folding `n` writes from a state whose cursor has room for them:
the buffer picks up the samples in order starting at the old cursor,
the cursor advances (wrapping to 0 exactly when it lands on
`sample_count`), and everything else is unchanged. -/
theorem writeAll_spec (xs : List ℝ) : ∀ (d : MemoryDelay),
    d.sample_count ≤ d.buffer.length →
    d.index + xs.length ≤ d.sample_count →
    (d.writeAll xs).buffer.length = d.buffer.length ∧
    (d.writeAll xs).sample_count = d.sample_count ∧
    (d.writeAll xs).index =
      (if d.index + xs.length = d.sample_count ∧ 1 ≤ xs.length then 0
       else d.index + xs.length) ∧
    ∀ p, (d.writeAll xs).buffer.getD p 0 =
      (if d.index ≤ p ∧ p < d.index + xs.length then xs.getD (p - d.index) 0
       else d.buffer.getD p 0) := by
  induction xs with
  | nil =>
    intro d h1 h2
    refine ⟨rfl, rfl, by simp [MemoryDelay.writeAll], fun p => ?_⟩
    simp only [MemoryDelay.writeAll, List.foldl_nil, List.length_nil, Nat.add_zero]
    rw [if_neg (by omega)]
  | cons x xs ih =>
    intro d h1 h2
    simp only [List.length_cons] at h2 ⊢
    have hidx : d.index < d.sample_count := by omega
    have hidxbuf : d.index < d.buffer.length := lt_of_lt_of_le hidx h1
    have hfold : d.writeAll (x :: xs) = (d.write x).writeAll xs := by
      simp [MemoryDelay.writeAll]
    by_cases hw : d.index + 1 ≥ d.sample_count
    · -- the write wraps, which forces xs = []
      have hxs : xs = [] := by
        have h0 : xs.length = 0 := by omega
        exact List.length_eq_zero.mp h0
      subst hxs
      have heq : d.index + 1 = d.sample_count := by omega
      have hwx : d.write x =
          { buffer := d.buffer.set d.index x, sample_count := d.sample_count,
            index := 0 } := by
        simp only [MemoryDelay.write]
        rw [if_pos hw]
      have hres : d.writeAll [x] =
          { buffer := d.buffer.set d.index x, sample_count := d.sample_count,
            index := 0 } := by
        rw [hfold, hwx]; rfl
      rw [hres]
      refine ⟨by simp, rfl, ?_, ?_⟩
      · dsimp only
        rw [if_pos (by simp; omega)]
      · intro p
        dsimp only
        by_cases hp : p = d.index
        · subst hp
          rw [getD_set_self hidxbuf, if_pos (by simp)]
          simp
        · rw [getD_set_ne (fun hc => hp hc.symm), if_neg (by simp; omega)]
    · push_neg at hw
      have hstep : d.write x =
          { buffer := d.buffer.set d.index x, sample_count := d.sample_count,
            index := d.index + 1 } := by
        simp only [MemoryDelay.write]
        rw [if_neg (by omega)]
      obtain ⟨ihl, ihsc, ihidx, ihget⟩ :=
        ih (d.write x)
          (by rw [hstep]; dsimp only; rw [List.length_set]; exact h1)
          (by rw [hstep]; dsimp only; omega)
      rw [hfold]
      refine ⟨?_, ?_, ?_, ?_⟩
      · rw [ihl, hstep]; simp
      · rw [ihsc, hstep]
      · rw [ihidx, hstep]
        dsimp only
        split_ifs <;> omega
      · intro p
        rw [ihget p, hstep]
        dsimp only
        by_cases hin : d.index + 1 ≤ p ∧ p < d.index + 1 + xs.length
        · rw [if_pos hin, if_pos (by omega)]
          have harith : p - d.index = (p - (d.index + 1)) + 1 := by omega
          rw [harith, List.getD_cons_succ]
        · rw [if_neg hin]
          by_cases hp : p = d.index
          · subst hp
            rw [getD_set_self hidxbuf, if_pos (by omega)]
            simp
          · rw [getD_set_ne (fun hc => hp hc.symm), if_neg (by omega)]

/-! ### C5 — DelayLine round-trip -/

/-- C5: configure `sample_count = n` (with `1 ≤ n ≤ N`) on a fresh line,
write the `n` samples `s0 .. s(n-1)` in order; the read taken after the
n-th write (the write-then-read protocol) returns `s0`: the line
reproduces its input delayed by exactly `n` samples. -/
theorem delay_roundtrip (N n : ℕ) (xs : List ℝ) (d : MemoryDelay)
    (h1 : 1 ≤ n) (h2 : n ≤ N) (hxs : xs.length = n)
    (hd : (MemoryDelay.default N).set_sample_count n = some d) :
    (d.writeAll xs).read = xs.getD 0 0 := by
  have hdef : d = { buffer := List.replicate N 0, sample_count := n, index := 0 } := by
    unfold MemoryDelay.default MemoryDelay.set_sample_count at hd
    rw [if_neg (by simp; omega)] at hd
    exact (Option.some_injective _ hd).symm
  obtain ⟨hl, hsc, hidx, hget⟩ :=
    writeAll_spec xs d
      (by rw [hdef]; simpa using h2)
      (by rw [hdef]; simp [hxs])
  unfold MemoryDelay.read
  rw [hidx, hdef]
  dsimp only
  rw [if_pos (by simp [hxs]; omega)]
  have h0 := hget 0
  rw [hdef] at h0
  dsimp only at h0
  rw [if_pos (by simp [hxs]; omega)] at h0
  simpa using h0

/-- C5 witness: capacity 4, `n = 3`, samples `[5, 6, 7]`; the third read
returns 5. -/
theorem delay_roundtrip_witness :
    ((({ buffer := List.replicate 4 0, sample_count := 3, index := 0 } : MemoryDelay).writeAll
        [(5 : ℝ), 6, 7]).read = ([(5 : ℝ), 6, 7]).getD 0 0) := by
  exact delay_roundtrip 4 3 [(5 : ℝ), 6, 7] _ (by omega) (by omega) (by simp)
    (by simp [MemoryDelay.default, MemoryDelay.set_sample_count, List.replicate])

/-! ### C10 — cursor invariant of MemoryDelay -/

/-- C10: whenever `1 ≤ sample_count ≤ N` and `index < sample_count`,
`write` preserves `index < sample_count` (and touches neither the active
length nor the capacity), so all buffer accesses stay inside the
capacity-`N` buffer; the invariant holds at `Default` (for a nonempty
buffer): `index = 0 < N = sample_count`, and reads before the first wrap
return `0.0` from the zeroed buffer. -/
theorem memoryDelay_invariant :
    (∀ (d : MemoryDelay) (v : ℝ), 1 ≤ d.sample_count →
      d.sample_count ≤ d.buffer.length → d.index < d.sample_count →
      (d.write v).index < (d.write v).sample_count ∧
      (d.write v).sample_count = d.sample_count ∧
      (d.write v).buffer.length = d.buffer.length) ∧
    (∀ N, 1 ≤ N →
      (MemoryDelay.default N).index < (MemoryDelay.default N).sample_count ∧
      (MemoryDelay.default N).sample_count = N ∧
      (MemoryDelay.default N).read = 0) ∧
    (∀ N (xs : List ℝ), xs.length < N →
      ((MemoryDelay.default N).writeAll xs).read = 0) := by
  refine ⟨?_, ?_, ?_⟩
  · intro d v hsc hcap hidx
    unfold MemoryDelay.write
    dsimp only
    refine ⟨?_, rfl, by simp⟩
    split_ifs <;> omega
  · intro N hN
    refine ⟨by simpa [MemoryDelay.default] using hN, rfl, ?_⟩
    simp [MemoryDelay.default, MemoryDelay.read]
  · intro N xs hlt
    obtain ⟨hl, hsc, hidx, hget⟩ :=
      writeAll_spec xs (MemoryDelay.default N)
        (by simp [MemoryDelay.default])
        (by simp [MemoryDelay.default]; omega)
    unfold MemoryDelay.read
    rw [hidx]
    simp only [MemoryDelay.default, Nat.zero_add]
    rw [if_neg (by simp [MemoryDelay.default]; omega)]
    have h0 := hget xs.length
    simp only [MemoryDelay.default, Nat.zero_add] at h0
    rw [if_neg (by omega)] at h0
    rw [h0]
    simp

/-- C10 witness: a concrete write on a two-slot line, the default state
for `N = 2`, and a single-sample stream that reads back 0. -/
theorem memoryDelay_invariant_witness :
    (({ buffer := [0, 0], sample_count := 2, index := 0 } : MemoryDelay).write 1).index < 2 ∧
    (MemoryDelay.default 2).read = 0 ∧
    ((MemoryDelay.default 2).writeAll [(5 : ℝ)]).read = 0 := by
  refine ⟨?_, ?_, ?_⟩
  · have h := (memoryDelay_invariant.1
      { buffer := [0, 0], sample_count := 2, index := 0 } 1 (by simp) (by simp) (by simp)).1
    simpa using h
  · exact (memoryDelay_invariant.2.1 2 (by omega)).2.2
  · exact memoryDelay_invariant.2.2 2 [(5 : ℝ)] (by simp)

/-! ### C7 — dry/wet boundary -/

theorem zipWith_dry_mix (xs : List ℝ) : ∀ ys : List ℝ, xs.length ≤ ys.length →
    List.zipWith (fun a b => a * 1 + b * 0) xs ys = xs := by
  induction xs with
  | nil => intro ys _; simp
  | cons x xs ih =>
    intro ys hlen
    cases ys with
    | nil => simp at hlen
    | cons y ys =>
      simp only [List.zipWith_cons_cons, List.length_cons] at hlen ⊢
      rw [show x * 1 + y * 0 = x by ring, ih ys (by omega)]

/-- C7: with `dry = 1` and `wet = 0`, `BasicReverb::process` returns its
input frame unchanged, for every engine state whose feedback loop has (at
least) one delay line per input channel — the feedback path contributes
nothing to the output frame. -/
theorem dry_wet_identity (r : BasicReverb) (input : List ℝ)
    (hdry : r.dry = 1) (hwet : r.wet = 0)
    (hlen : input.length ≤ r.feedback.delays.length) :
    (BasicReverb.process r input).2 = input := by
  have hsnd : ∀ (m : MixedFeedback) (i : List ℝ),
      (MixedFeedback.process m i).2 = m.delays.map MemoryDelay.read := fun _ _ => rfl
  show List.zipWith (fun a b => a * r.dry + b * r.wet) input
      (MixedFeedback.process r.feedback (Diffuser.process r.diffuser input).2).2 = input
  rw [hsnd]
  simp only [hdry, hwet]
  exact zipWith_dry_mix input _ (by simpa using hlen)

/-- C7 witness: a one-channel engine state with `dry = 1`, `wet = 0` maps
the frame `[3]` to itself. -/
theorem dry_wet_identity_witness :
    (BasicReverb.process
      { diffuser := [],
        feedback := { delays := [{ buffer := [0], sample_count := 1, index := 0 }], decay := 0 },
        dry := 1, wet := 0 } [(3 : ℝ)]).2 = [(3 : ℝ)] := by
  exact dry_wet_identity _ [(3 : ℝ)] rfl rfl (by simp)

/-! ### C8 — determinism of construction and processing -/

/-- C8: two engines constructed with identical parameters (and the
identical, hard-coded seed 82734) produce identical output sequences on
identical input sequences: construction consumes the PRNG only at
build time and `process` is a pure function of state and input. -/
theorem reverb_determinism (N C S sample_rate : ℕ) (rs rt dry wet : ℝ)
    (N' C' S' sample_rate' : ℕ) (rs' rt' dry' wet' : ℝ) (xs xs' : List (List ℝ))
    (h1 : N = N') (h2 : C = C') (h3 : S = S') (h4 : sample_rate = sample_rate')
    (h5 : rs = rs') (h6 : rt = rt') (h7 : dry = dry') (h8 : wet = wet')
    (h9 : xs = xs') :
    (BasicReverb.new N C S sample_rate rs rt dry wet).map (fun r => r.processSeq xs) =
    (BasicReverb.new N' C' S' sample_rate' rs' rt' dry' wet').map (fun r => r.processSeq xs') := by
  subst h1; subst h2; subst h3; subst h4; subst h5; subst h6; subst h7; subst h8; subst h9
  rfl

/-- C8 witness: the determinism theorem applied at concrete parameters. -/
theorem reverb_determinism_witness :
    (BasicReverb.new 8 2 1 10 1 1 1 1).map (fun r => r.processSeq [[1, 2]]) =
    (BasicReverb.new 8 2 1 10 1 1 1 1).map (fun r => r.processSeq [[1, 2]]) :=
  reverb_determinism 8 2 1 10 1 1 1 1 8 2 1 10 1 1 1 1 [[1, 2]] [[1, 2]]
    rfl rfl rfl rfl rfl rfl rfl rfl rfl

/-! ### C1 — the feedback write-back uses the pre-mix values (code bug)

The spec (§4.6) says the value written back into channel i's delay line
is `input[i] + delayed[i] × decay` with `delayed` the
Householder-transformed vector.  In `MixedFeedback::process` the
transform's output is never read again: the write-back uses `mixed`, the
pre-transform clone.  Concretely: two channels with current delayed
values `[1, 0]`, zero input, decay 1/2.  The Householder transform of
`[1, 0]` is `[0, -1]`, so the claimed channel-0 write-back is
`0 + 0 × 1/2 = 0`; the code writes `0 + 1 × 1/2 = 1/2`. -/

/-- C1: at the concrete state above, the value the code writes back into
channel 0's delay line is 1/2 (the pre-mix value times decay plus the
input), while the claim's formula — input plus the
Householder-transformed value times decay — yields 0; the two differ. -/
theorem feedback_writes_premix :
    ((MixedFeedback.process
        { delays := [{ buffer := [1], sample_count := 1, index := 0 },
                     { buffer := [0], sample_count := 1, index := 0 }],
          decay := 1 / 2 } [0, 0]).1.delays.getD 0
        { buffer := [], sample_count := 0, index := 0 }).buffer.getD 0 0 = 1 / 2 ∧
    ([(0 : ℝ), 0]).getD 0 0 +
      (transform_householder
        (({ delays := [{ buffer := [(1 : ℝ)], sample_count := 1, index := 0 },
                       { buffer := [0], sample_count := 1, index := 0 }],
            decay := 1 / 2 } : MixedFeedback).delays.map MemoryDelay.read)).getD 0 0 * (1 / 2) = 0 ∧
    (1 / 2 : ℝ) ≠ 0 := by
  refine ⟨?_, ?_, by norm_num⟩
  · norm_num [MixedFeedback.process, MemoryDelay.read, MemoryDelay.write]
  · norm_num [transform_householder, MemoryDelay.read]

/-! ### C2 — diffusion delay draws ignore the bucket offset (code bug)

`DiffusionStep::new` computes `lo` and `hi` for channel i's sub-range
`[i·D/C, (i+1)·D/C)` but then uses only `range = hi - lo`:
`delay_size = range * (n / u32::MAX)` — the `lo` offset is never added,
so every channel draws from `[0, D/C]` instead of its own bucket,
contradicting both the spec and the constructor's own doc comment. -/

theorem asUsize_le {x : ℝ} {m : ℕ} (h : x ≤ (m : ℝ)) : asUsize x ≤ m := by
  unfold asUsize
  have hfl : Int.floor x ≤ (m : ℤ) := by
    have := Int.floor_mono h
    simpa using this
  omega

/-- The drawn size never exceeds the bucket width `D/C` (whenever the
PRNG value is a genuine `u32` and the budget is non-negative). -/
theorem diffusionDrawnSize_le (ds : ℝ) (C i n m : ℕ)
    (hds : 0 ≤ ds) (hn : n ≤ u32Max) (hm : ds / (C : ℝ) ≤ (m : ℝ)) :
    diffusionDrawnSize ds C i n ≤ m := by
  unfold diffusionDrawnSize
  dsimp only
  have hrange : ds * ((i : ℝ) + 1) / (C : ℝ) - ds * (i : ℝ) / (C : ℝ) = ds / (C : ℝ) := by
    rw [div_sub_div_same]
    ring_nf
  rw [hrange]
  refine asUsize_le (le_trans ?_ hm)
  have hratio0 : (0 : ℝ) ≤ (n : ℝ) / (u32Max : ℝ) := by positivity
  have hratio1 : (n : ℝ) / (u32Max : ℝ) ≤ 1 := by
    rw [div_le_one (by norm_num [u32Max])]
    exact_mod_cast Nat.cast_le.mpr hn
  calc ds / (C : ℝ) * ((n : ℝ) / (u32Max : ℝ))
      ≤ ds / (C : ℝ) * 1 := by
        exact mul_le_mul_of_nonneg_left hratio1 (div_nonneg hds (Nat.cast_nonneg C))
    _ = ds / (C : ℝ) := mul_one _

set_option maxRecDepth 8000 in
/-- C2: channel 3 of a `DiffusionStep` built with `D = 400` samples of
budget over `C = 4` channels can never receive a delay drawn from its
claimed bucket `[300, 400)`: whatever the PRNG draw, the computed size is
at most 100 (first conjunct); and for the concrete construction
(capacity 1000, sample rate 100, 4 s range, seed 12) channel 3's line is
configured with a `sample_count` of at most 101, not a value in
`[301, 401)` (second conjunct). -/
theorem diffusion_bucket_violation :
    (∀ n, n ≤ u32Max → diffusionDrawnSize 400 4 3 n < 300) ∧
    (∀ st, (DiffusionStep.new 1000 4 100 4 12).1 = some st →
      (st.delays.getD 3 { buffer := [], sample_count := 0, index := 0 }).sample_count =
          diffusionDrawnSize (4 * ((100 : ℕ) : ℝ)) 4 3 4043112305 + 1 ∧
      (st.delays.getD 3 { buffer := [], sample_count := 0, index := 0 }).sample_count < 301) := by
  have hbound : ∀ i n, n ≤ u32Max →
      diffusionDrawnSize (4 * ((100 : ℕ) : ℝ)) 4 i n ≤ 100 := by
    intro i n hn
    refine diffusionDrawnSize_le _ 4 i n 100 (by norm_num) hn (by norm_num)
  constructor
  · intro n hn
    have h := diffusionDrawnSize_le 400 4 3 n 100 (by norm_num) hn (by norm_num)
    omega
  · intro st hst
    have hset : ∀ k, k ≤ 1000 → (MemoryDelay.default 1000).set_sample_count k =
        some { buffer := List.replicate 1000 0, sample_count := k, index := 0 } := by
      intro k hk
      unfold MemoryDelay.default MemoryDelay.set_sample_count
      rw [if_neg (by simp; omega)]
    have hn1 : (Rnd.next 12).1 ≤ u32Max := by decide
    have hn2 : (Rnd.next (Rnd.next 12).2).1 ≤ u32Max := by decide
    have hn3 : (Rnd.next (Rnd.next (Rnd.next 12).2).2).1 ≤ u32Max := by decide
    have hn4 : (Rnd.next (Rnd.next (Rnd.next (Rnd.next 12).2).2).2).1 ≤ u32Max := by decide
    have hv4 : (Rnd.next (Rnd.next (Rnd.next (Rnd.next 12).2).2).2).1 = 4043112305 := by decide
    unfold DiffusionStep.new at hst
    rw [show List.range 4 = [0, 1, 2, 3] by decide] at hst
    simp only [List.foldl_cons, List.foldl_nil] at hst
    rw [hset _ (by have := hbound 0 _ hn1; omega),
        hset _ (by have := hbound 1 _ hn2; omega),
        hset _ (by have := hbound 2 _ hn3; omega),
        hset _ (by have := hbound 3 _ hn4; omega)] at hst
    simp only [Option.some_bind, Option.map_some', Option.some.injEq] at hst
    subst hst
    simp only [List.nil_append, List.cons_append, List.getD_cons_succ, List.getD_cons_zero]
    rw [hv4]
    have := hbound 3 4043112305 (by decide)
    refine ⟨rfl, by omega⟩

/-! ### C3/C9 — the Hadamard development

Basic facts about one butterfly and about folding a list of butterflies
whose index pairs are pairwise disjoint. -/

theorem bfly_length (l : List ℝ) (p q : ℕ) : (bfly l p q).length = l.length := by
  simp [bfly]

theorem runPairs_length (ps : List (ℕ × ℕ)) : ∀ l : List ℝ,
    (runPairs l ps).length = l.length := by
  induction ps with
  | nil => intro l; rfl
  | cons pq ps ih =>
    intro l
    unfold runPairs at ih ⊢
    rw [List.foldl_cons, ih, bfly_length]

theorem list_sum_range (g : ℕ → ℝ) (n : ℕ) :
    ((List.range n).map g).sum = ∑ i ∈ Finset.range n, g i := by
  induction n with
  | zero => simp
  | succ n ih => simp [List.range_succ, Finset.sum_range_succ, ih]

theorem sumSq_eq_range (l : List ℝ) :
    sumSq l = ∑ i ∈ Finset.range l.length, l.getD i 0 * l.getD i 0 := by
  induction l with
  | nil => simp [sumSq]
  | cons a t ih =>
    unfold sumSq at ih ⊢
    rw [List.map_cons, List.sum_cons, List.length_cons, Finset.sum_range_succ']
    simp only [List.getD_cons_succ, List.getD_cons_zero]
    rw [ih]
    ring

theorem getD_bfly_ne (l : List ℝ) (p q x : ℕ) (hp : x ≠ p) (hq : x ≠ q) :
    (bfly l p q).getD x 0 = l.getD x 0 := by
  unfold bfly
  dsimp only
  rw [getD_set_ne (fun h => hq h.symm), getD_set_ne (fun h => hp h.symm)]

theorem getD_bfly_fst (l : List ℝ) (p q : ℕ) (hpq : p ≠ q) (hp : p < l.length) :
    (bfly l p q).getD p 0 = l.getD p 0 + l.getD q 0 := by
  unfold bfly
  dsimp only
  rw [getD_set_ne (fun h => hpq h.symm), getD_set_self hp]

theorem getD_bfly_snd (l : List ℝ) (p q : ℕ) (hq : q < l.length) :
    (bfly l p q).getD q 0 = l.getD p 0 - l.getD q 0 := by
  unfold bfly
  dsimp only
  rw [getD_set_self (by simpa using hq)]

theorem sumSq_bfly (l : List ℝ) (p q : ℕ) (hpq : p ≠ q)
    (hp : p < l.length) (hq : q < l.length) :
    sumSq (bfly l p q) =
      sumSq l + l.getD p 0 * l.getD p 0 + l.getD q 0 * l.getD q 0 := by
  rw [sumSq_eq_range, sumSq_eq_range, bfly_length]
  have hpm : p ∈ Finset.range l.length := Finset.mem_range.mpr hp
  have hqm : q ∈ (Finset.range l.length).erase p :=
    Finset.mem_erase.mpr ⟨fun h => hpq h.symm, Finset.mem_range.mpr hq⟩
  rw [← Finset.add_sum_erase _
        (fun i => (bfly l p q).getD i 0 * (bfly l p q).getD i 0) hpm,
      ← Finset.add_sum_erase _
        (fun i => (bfly l p q).getD i 0 * (bfly l p q).getD i 0) hqm,
      ← Finset.add_sum_erase _ (fun i => l.getD i 0 * l.getD i 0) hpm,
      ← Finset.add_sum_erase _ (fun i => l.getD i 0 * l.getD i 0) hqm]
  have hrest : ∑ x ∈ ((Finset.range l.length).erase p).erase q,
      (bfly l p q).getD x 0 * (bfly l p q).getD x 0 =
      ∑ x ∈ ((Finset.range l.length).erase p).erase q, l.getD x 0 * l.getD x 0 := by
    refine Finset.sum_congr rfl (fun x hx => ?_)
    have hxq : x ≠ q := (Finset.mem_erase.mp hx).1
    have hxp : x ≠ p := (Finset.mem_erase.mp (Finset.mem_erase.mp hx).2).1
    rw [getD_bfly_ne l p q x hxp hxq]
  rw [hrest, getD_bfly_fst l p q hpq hp, getD_bfly_snd l p q hq]
  ring

theorem sumSq_runPairs (ps : List (ℕ × ℕ)) : ∀ l : List ℝ,
    (∀ pq ∈ ps, pq.1 < l.length ∧ pq.2 < l.length) →
    ((ps.flatMap fun pq => [pq.1, pq.2]).Nodup) →
    sumSq (runPairs l ps) =
      sumSq l + (ps.map fun pq =>
        l.getD pq.1 0 * l.getD pq.1 0 + l.getD pq.2 0 * l.getD pq.2 0).sum := by
  induction ps with
  | nil => intro l _ _; simp [runPairs]
  | cons pq ps ih =>
    intro l hb hnd
    obtain ⟨p, q⟩ := pq
    simp only [List.flatMap_cons, List.nodup_append] at hnd
    obtain ⟨hnd1, hnd2, hdisj⟩ := hnd
    have hpq : p ≠ q := by
      intro h
      subst h
      simp at hnd1
    have hnotin : ∀ x, x ∈ ps.flatMap (fun pq => [pq.1, pq.2]) → x ≠ p ∧ x ≠ q := by
      intro x hx
      constructor
      · intro h; subst h; exact hdisj (by simp) hx
      · intro h; subst h; exact hdisj (by simp) hx
    have hbp := (hb (p, q) (by simp)).1
    have hbq := (hb (p, q) (by simp)).2
    have hstep : runPairs l ((p, q) :: ps) = runPairs (bfly l p q) ps := by
      unfold runPairs
      rw [List.foldl_cons]
    rw [hstep]
    have hblen : (bfly l p q).length = l.length := bfly_length l p q
    rw [ih (bfly l p q) (fun r hr => by rw [hblen]; exact hb r (List.mem_cons_of_mem _ hr)) hnd2]
    have hmap : (ps.map fun r =>
        (bfly l p q).getD r.1 0 * (bfly l p q).getD r.1 0 +
          (bfly l p q).getD r.2 0 * (bfly l p q).getD r.2 0) =
        (ps.map fun r => l.getD r.1 0 * l.getD r.1 0 + l.getD r.2 0 * l.getD r.2 0) := by
      refine List.map_congr_left (fun r hr => ?_)
      have h1 := hnotin r.1 (List.mem_flatMap.mpr ⟨r, hr, by simp⟩)
      have h2 := hnotin r.2 (List.mem_flatMap.mpr ⟨r, hr, by simp⟩)
      rw [getD_bfly_ne l p q r.1 h1.1 h1.2, getD_bfly_ne l p q r.2 h2.1 h2.2]
    rw [hmap, sumSq_bfly l p q hpq hbp hbq]
    simp only [List.map_cons, List.sum_cons]
    ring

/-! The block structure of one stride pass when `stride * 2` divides `C`:
`blockStarts` is exactly the multiples of `stride * 2`, and the accesses
enumerate each block's `stride` butterfly pairs. -/

theorem range_filter_mod (s2 : ℕ) (hs : 1 ≤ s2) : ∀ B : ℕ,
    (List.range (B * s2)).filter (fun i => i % s2 = 0) =
      (List.range B).map (fun q => q * s2) := by
  intro B
  induction B with
  | zero => simp
  | succ B ih =>
    rw [show (B + 1) * s2 = B * s2 + s2 by ring, List.range_add,
        List.filter_append, ih, List.range_succ, List.map_append]
    congr 1
    rw [List.filter_map]
    have hcong : (List.range s2).filter
        ((fun i => decide (i % s2 = 0)) ∘ (fun x => B * s2 + x)) =
        (List.range s2).filter (fun x => decide (x = 0)) := by
      refine List.filter_congr (fun a ha => ?_)
      have ha' : a < s2 := List.mem_range.mp ha
      simp only [Function.comp_apply, decide_eq_decide]
      rw [Nat.add_comm, Nat.add_mul_mod_self_right, Nat.mod_eq_of_lt ha']
    rw [hcong]
    have hzero : (List.range s2).filter (fun x => decide (x = 0)) = [0] := by
      cases s2 with
      | zero => omega
      | succ t =>
        rw [List.range_succ_eq_map, List.filter_cons_of_pos (by simp),
            List.filter_map]
        have hnil : (List.range t).filter
            ((fun x => decide (x = 0)) ∘ (fun y => y + 1)) = [] := by
          rw [List.filter_eq_nil_iff]
          intro a _
          simp
        rw [hnil]
        rfl
    rw [hzero]
    simp

theorem strideAccesses_eq (B s : ℕ) (hs : 1 ≤ s) :
    strideAccesses (B * (s * 2)) s =
      (List.range B).flatMap (fun q =>
        (List.range s).map (fun j => (q * (s * 2) + j, q * (s * 2) + j + s))) := by
  unfold strideAccesses blockStarts
  rw [range_filter_mod (s * 2) (by omega) B, List.flatMap_map]

theorem strideAccesses_bounds (B s : ℕ) (hs : 1 ≤ s) :
    ∀ pq ∈ strideAccesses (B * (s * 2)) s, pq.1 < B * (s * 2) ∧ pq.2 < B * (s * 2) := by
  intro pq hpq
  rw [strideAccesses_eq B s hs] at hpq
  simp only [List.mem_flatMap, List.mem_map, List.mem_range] at hpq
  obtain ⟨q, hq, j, hj, rfl⟩ := hpq
  have hmul : q * (s * 2) + s * 2 ≤ B * (s * 2) := by
    calc q * (s * 2) + s * 2 = (q + 1) * (s * 2) := by ring
      _ ≤ B * (s * 2) := Nat.mul_le_mul_right _ (by omega)
  constructor
  · simp only []
    omega
  · simp only []
    omega

theorem strideAccesses_nodup (B s : ℕ) (hs : 1 ≤ s) :
    ((strideAccesses (B * (s * 2)) s).flatMap fun pq => [pq.1, pq.2]).Nodup := by
  rw [strideAccesses_eq B s hs, List.flatMap_assoc]
  have hinner : ∀ q : ℕ, (((List.range s).map
      (fun j => (q * (s * 2) + j, q * (s * 2) + j + s))).flatMap
      (fun pq => [pq.1, pq.2])) =
      (List.range s).flatMap (fun j => [q * (s * 2) + j, q * (s * 2) + j + s]) := by
    intro q
    rw [List.flatMap_map]
  simp only [hinner]
  rw [List.nodup_flatMap]
  constructor
  · intro q _
    rw [List.nodup_flatMap]
    constructor
    · intro j _
      simp only [List.nodup_cons, List.mem_singleton, List.not_mem_nil,
        not_false_iff, and_true, List.nodup_nil]
      omega
    · refine List.Pairwise.imp_of_mem ?_ (List.pairwise_lt_range s)
      intro j j' hj hj' hjj x hx hx'
      have hjs : j < s := List.mem_range.mp hj
      have hjs' : j' < s := List.mem_range.mp hj'
      simp only [List.mem_cons, List.mem_singleton, List.not_mem_nil, or_false] at hx hx'
      have hbase : 0 ≤ q * (s * 2) := Nat.zero_le _
      omega
  · refine List.Pairwise.imp_of_mem ?_ (List.pairwise_lt_range B)
    intro q q' hq hq' hqq x hx hx'
    simp only [List.mem_flatMap, List.mem_cons, List.mem_singleton, List.not_mem_nil,
      or_false, List.mem_range] at hx hx'
    obtain ⟨j, hj, hxe⟩ := hx
    obtain ⟨j', hj', hxe'⟩ := hx'
    have hmul : q * (s * 2) + s * 2 ≤ q' * (s * 2) := by
      calc q * (s * 2) + s * 2 = (q + 1) * (s * 2) := by ring
        _ ≤ q' * (s * 2) := Nat.mul_le_mul_right _ (by omega)
    omega

theorem list_sum_map_add (g h : ℕ → ℝ) (xs : List ℕ) :
    (xs.map fun x => g x + h x).sum = (xs.map g).sum + (xs.map h).sum := by
  induction xs with
  | nil => simp
  | cons a t ih => simp [ih]; ring

theorem strideAccesses_sumIdx (f : ℕ → ℝ) (s : ℕ) (hs : 1 ≤ s) : ∀ B : ℕ,
    ((strideAccesses (B * (s * 2)) s).map fun pq => f pq.1 + f pq.2).sum =
      ((List.range (B * (s * 2))).map f).sum := by
  intro B
  induction B with
  | zero => simp [strideAccesses, blockStarts]
  | succ B ih =>
    have hL : ((strideAccesses ((B + 1) * (s * 2)) s).map fun pq => f pq.1 + f pq.2).sum =
        ((strideAccesses (B * (s * 2)) s).map fun pq => f pq.1 + f pq.2).sum +
        ((List.range s).map fun j =>
          f (B * (s * 2) + j) + f (B * (s * 2) + j + s)).sum := by
      rw [strideAccesses_eq (B + 1) s hs, List.range_succ, List.flatMap_append,
          List.map_append, List.sum_append, ← strideAccesses_eq B s hs]
      congr 1
      rw [List.flatMap_singleton, List.map_map]
      rfl
    have hR : ((List.range ((B + 1) * (s * 2))).map f).sum =
        ((List.range (B * (s * 2))).map f).sum +
        (((List.range s).map fun j => f (B * (s * 2) + j)).sum +
         ((List.range s).map fun j => f (B * (s * 2) + (s + j))).sum) := by
      rw [show (B + 1) * (s * 2) = B * (s * 2) + s * 2 by ring, List.range_add,
          List.map_append, List.sum_append]
      congr 1
      rw [show List.range (s * 2) = List.range s ++ (List.range s).map (fun x => s + x) from
            by rw [show s * 2 = s + s by ring, List.range_add],
          List.map_append, List.map_append, List.sum_append]
      simp only [List.map_map]
      rfl
    rw [hL, hR, ih, list_sum_map_add]
    have hmatch : ((List.range s).map fun j => f (B * (s * 2) + j + s)).sum =
        ((List.range s).map fun j => f (B * (s * 2) + (s + j))).sum := by
      refine congrArg List.sum (List.map_congr_left (fun j _ => ?_))
      have harith : B * (s * 2) + j + s = B * (s * 2) + (s + j) := by ring
      rw [harith]
    rw [hmatch]

/-! The stride list for a power-of-two channel count, and the energy
doubling of one stride pass. -/

theorem range_filter_lt (n k : ℕ) (h : k ≤ n) :
    (List.range n).filter (fun x => x < k) = List.range k := by
  obtain ⟨m, rfl⟩ := Nat.exists_eq_add_of_le h
  rw [List.range_add, List.filter_append]
  have h1 : (List.range k).filter (fun x => decide (x < k)) = List.range k :=
    List.filter_eq_self.mpr (fun a ha => by simpa using List.mem_range.mp ha)
  have h2 : ((List.range m).map (fun x => k + x)).filter (fun x => decide (x < k)) = [] := by
    rw [List.filter_map, List.filter_eq_nil_iff.mpr (fun a _ => by simp)]
    rfl
  rw [h1, h2, List.append_nil]

theorem strides_two_pow (k : ℕ) : strides (2 ^ k) = (List.range k).map (2 ^ ·) := by
  unfold strides
  rw [List.filter_map]
  have hcong : (List.range (2 ^ k)).filter ((fun s => decide (s < 2 ^ k)) ∘ (2 ^ ·)) =
      (List.range (2 ^ k)).filter (fun m => decide (m < k)) := by
    refine List.filter_congr (fun m _ => ?_)
    simp only [Function.comp_apply, decide_eq_decide]
    exact Nat.pow_lt_pow_iff_right (by norm_num)
  rw [hcong, range_filter_lt (2 ^ k) k (le_of_lt (Nat.lt_two_pow k))]

theorem sumSq_strideStage (s B : ℕ) (hs : 1 ≤ s) (l : List ℝ)
    (hlen : l.length = B * (s * 2)) :
    sumSq (strideStage (B * (s * 2)) s l) = 2 * sumSq l := by
  unfold strideStage
  have hb : ∀ pq ∈ strideAccesses (B * (s * 2)) s, pq.1 < l.length ∧ pq.2 < l.length := by
    rw [hlen]
    exact strideAccesses_bounds B s hs
  rw [sumSq_runPairs (strideAccesses (B * (s * 2)) s) l hb (strideAccesses_nodup B s hs)]
  have h1 := strideAccesses_sumIdx (fun x => l.getD x 0 * l.getD x 0) s hs B
  rw [h1, list_sum_range, ← hlen, ← sumSq_eq_range]
  ring

theorem sumSq_stagesFold (C : ℕ) (ms : List ℕ) :
    ∀ acc : List ℝ, acc.length = C →
    (∀ m ∈ ms, ∃ B, C = B * (2 ^ m * 2)) →
    sumSq (ms.foldl (fun a m => strideStage C (2 ^ m) a) acc) =
      2 ^ ms.length * sumSq acc := by
  induction ms with
  | nil => intro acc _ _; simp
  | cons m ms ih =>
    intro acc hlen hdiv
    rw [List.foldl_cons]
    obtain ⟨B, hB⟩ := hdiv m (by simp)
    have hstage : sumSq (strideStage C (2 ^ m) acc) = 2 * sumSq acc := by
      rw [hB]
      exact sumSq_strideStage (2 ^ m) B Nat.one_le_two_pow acc (by rw [hlen, hB])
    have hlen' : (strideStage C (2 ^ m) acc).length = C := by
      unfold strideStage
      rw [runPairs_length, hlen]
    rw [ih (strideStage C (2 ^ m) acc) hlen' (fun m' hm' => hdiv m' (by simp [hm'])),
        hstage, List.length_cons, pow_succ]
    ring

theorem sumSq_hadamardCore (k : ℕ) (l : List ℝ) (hlen : l.length = 2 ^ k) :
    sumSq (hadamardCore l) = 2 ^ k * sumSq l := by
  unfold hadamardCore
  rw [hlen, strides_two_pow k, List.foldl_map]
  have hdiv : ∀ m ∈ List.range k, ∃ B, 2 ^ k = B * (2 ^ m * 2) := by
    intro m hm
    have hmk : m < k := List.mem_range.mp hm
    refine ⟨2 ^ (k - m - 1), ?_⟩
    rw [show (2 : ℕ) ^ m * 2 = 2 ^ (m + 1) by rw [pow_succ], ← pow_add]
    congr 1
    omega
  have hfold := sumSq_stagesFold (2 ^ k) (List.range k) l hlen hdiv
  rw [List.length_range] at hfold
  exact hfold

theorem sumSq_map_mul (l : List ℝ) (c : ℝ) :
    sumSq (l.map fun b => b * c) = sumSq l * (c * c) := by
  unfold sumSq
  induction l with
  | nil => simp
  | cons a t ih => simp only [List.map_cons, List.sum_cons, ih]; ring

/-! ### C3 — Hadamard energy preservation -/

/-- C3: for every power-of-two channel count `C = 2^k` and every real
input vector of that length, `transform_hadamard` preserves the sum of
squares exactly. -/
theorem hadamard_energy_preservation (k : ℕ) (l : List ℝ) (hlen : l.length = 2 ^ k) :
    sumSq (transform_hadamard l) = sumSq l := by
  unfold transform_hadamard
  rw [sumSq_map_mul, sumSq_hadamardCore k l hlen, hlen]
  have hc : (((2 ^ k : ℕ) : ℝ)) = (2 : ℝ) ^ k := by push_cast; ring
  rw [hc, Real.mul_self_sqrt (by positivity)]
  have h2k : ((2 : ℝ)) ^ k ≠ 0 := by positivity
  field_simp

/-- C3 witness: energy preservation at the concrete vector
`[1, 2, 3, 4]` (`C = 2^2`). -/
theorem hadamard_energy_preservation_witness :
    ([(1 : ℝ), 2, 3, 4].length = 2 ^ 2) ∧
    sumSq (transform_hadamard [(1 : ℝ), 2, 3, 4]) = sumSq [(1 : ℝ), 2, 3, 4] :=
  ⟨by decide, hadamard_energy_preservation 2 [(1 : ℝ), 2, 3, 4] (by decide)⟩

/-! ### C9 — all butterfly indices are in bounds for power-of-two C -/

/-- C9: for `C = 2^k`, every index pair `(i + j, i + j + stride)` the
butterfly loops touch satisfies `i + j < C` and `i + j + stride < C`, so
`transform_hadamard` never indexes out of bounds. -/
theorem hadamard_index_bounds (k C : ℕ) (hC : C = 2 ^ k) :
    ∀ s ∈ strides C, ∀ pq ∈ strideAccesses C s, pq.1 < C ∧ pq.2 < C := by
  subst hC
  intro s hs pq hpq
  rw [strides_two_pow k] at hs
  simp only [List.mem_map, List.mem_range] at hs
  obtain ⟨m, hm, rfl⟩ := hs
  have hB : (2 : ℕ) ^ k = 2 ^ (k - m - 1) * (2 ^ m * 2) := by
    rw [show (2 : ℕ) ^ m * 2 = 2 ^ (m + 1) by rw [pow_succ], ← pow_add]
    congr 1
    omega
  rw [hB] at hpq ⊢
  exact strideAccesses_bounds (2 ^ (k - m - 1)) (2 ^ m) Nat.one_le_two_pow pq hpq

/-- C9 witness: at `C = 4`, stride 1 is taken and its first access pair
`(0, 1)` is within bounds. -/
theorem hadamard_index_bounds_witness :
    (1 ∈ strides 4) ∧ ((0, 1) ∈ strideAccesses 4 1) ∧
    (((0 : ℕ), (1 : ℕ)).1 < 4 ∧ ((0 : ℕ), (1 : ℕ)).2 < 4) :=
  ⟨by decide, by decide, hadamard_index_bounds 2 4 (by decide) 1 (by decide) (0, 1) (by decide)⟩

/-! ### Sanity anchors: the repository's own unit-test vectors

`householder.rs` tests `[1,2,3,4] → [-4,-3,-2,-1]` and
`[1,-2,3,-4] → [2,-1,4,-3]`; `hadamard.rs` tests `[1,1,1,1] → [2,0,0,0]`
and `[1,2,3,4] → [5,-1,-2,0]`.  The embedding reproduces all four
exactly. -/

theorem householder_test_vectors :
    transform_householder [(1 : ℝ), 2, 3, 4] = [-4, -3, -2, -1] ∧
    transform_householder [(1 : ℝ), -2, 3, -4] = [2, -1, 4, -3] := by
  constructor <;> (simp [transform_householder]; norm_num)

theorem sqrt_four : Real.sqrt (4 : ℝ) = 2 := by
  rw [show (4 : ℝ) = 2 ^ 2 by norm_num]
  exact Real.sqrt_sq (by norm_num)

theorem hadamard_test_vector_ones :
    transform_hadamard [(1 : ℝ), 1, 1, 1] = [2, 0, 0, 0] := by
  have h1 : strides 4 = [1, 2] := by decide
  have h2 : strideAccesses 4 1 = [(0, 1), (2, 3)] := by decide
  have h3 : strideAccesses 4 2 = [(0, 2), (1, 3)] := by decide
  unfold transform_hadamard hadamardCore
  simp only [List.length_cons, List.length_nil]
  rw [show (0 : ℕ) + 1 + 1 + 1 + 1 = 4 from rfl] at *
  rw [h1]
  simp only [List.foldl_cons, List.foldl_nil, strideStage, h2, h3, runPairs, bfly]
  norm_num [sqrt_four]

theorem hadamard_test_vector_1234 :
    transform_hadamard [(1 : ℝ), 2, 3, 4] = [5, -1, -2, 0] := by
  have h1 : strides 4 = [1, 2] := by decide
  have h2 : strideAccesses 4 1 = [(0, 1), (2, 3)] := by decide
  have h3 : strideAccesses 4 2 = [(0, 2), (1, 3)] := by decide
  unfold transform_hadamard hadamardCore
  simp only [List.length_cons, List.length_nil]
  rw [show (0 : ℕ) + 1 + 1 + 1 + 1 = 4 from rfl] at *
  rw [h1]
  simp only [List.foldl_cons, List.foldl_nil, strideStage, h2, h3, runPairs, bfly]
  norm_num [sqrt_four]
